import Mathlib

/-!
Verification of the tree edit mapping enumeration core
(`src/Baitoan6/backtracking.cpp`).

The C++ program represents nodes as heap objects identified by pointer.
We embed pointer identity as a natural number id.  The attribute fields of
`TreeNode` (`label`, `depth`, `order`, `parent`, `children`) become lookup
functions on ids, and the two global trees `T1`, `T2` together with the
dummy node allocated by `set_up_candidate_nodes` become an explicit
environment record `TEnv`.  The environment describes the global state at
the point where `extend_tree_edit` starts running: `preorder_tree_traversal`
and `preorder_tree_depth` have filled in `order`/`depth`, and the dummy node
is already a member of `T2.nodes` (it is pushed by `set_up_candidate_nodes`
before any candidate list is built).  The predicate `WF` records exactly the
facts those traversals establish for a well-formed input tree.

`std::map` values (the candidate map `C` and the mapping `M`) are embedded
as a function `Nat → List Nat` and an association list respectively; the
association list mirrors `operator[]` assignment (overwrite if the key is
present, insert otherwise).  `refine_candidate_nodes` takes its map by
reference and erases elements in place; its embedding
`refineCandidateNodes` denotes the value held by that by-reference argument
when the call returns.
-/

namespace TreeEdit

/-- Lookup in an association list, mirroring `std::map::find` /
`operator[]` read access: the first entry with the given key wins. -/
def mlookup {α β : Type} [DecidableEq α] : List (α × β) → α → Option β
  | [], _ => none
  | p :: rest, k => if p.1 = k then some p.2 else mlookup rest k

/-- Write `m[k] = w` on an association list, mirroring `std::map`
assignment: overwrite the entry if the key is present, append otherwise. -/
def mapInsert {α β : Type} [DecidableEq α] : List (α × β) → α → β → List (α × β)
  | [], k, w => [(k, w)]
  | p :: rest, k, w => if p.1 = k then (k, w) :: rest else p :: mapInsert rest k w

/-- Concatenate the results produced by the body of a `for` loop that
appends to an accumulator list, in iteration order. -/
def collectBranches {α β : Type} (f : α → List β) : List α → List β
  | [] => []
  | a :: rest => f a ++ collectBranches f rest

/-- Global state of the program when the search starts: the node sets of the
two trees `T1` and `T2` (ids standing for `TreeNode*` pointers, with the
dummy node already pushed into `T2.nodes`), the dummy node, `T1.root`, and
the per-node attribute fields of `TreeNode`. -/
structure TEnv where
  t1nodes : List Nat
  t2nodes : List Nat
  dummy : Nat
  root1 : Nat
  order : Nat → Nat
  depth : Nat → Int
  label : Nat → String
  parent : Nat → Option Nat
  children : Nat → List Nat

/-- Embedding of `set_up_candidate_nodes` (lines 126-146): for every T1 node
`v` the candidate list is the dummy node followed by the T2 nodes of equal
depth, in `T2.nodes` order.  The dummy node itself is skipped by the
explicit `w != T2.dummy` test in the source. -/
def setUpCandidateNodes (env : TEnv) : Nat → List Nat :=
  fun v =>
    env.dummy :: env.t2nodes.filter (fun w => decide (w ≠ env.dummy ∧ env.depth v = env.depth w))

/-- Guard and per-sibling condition of the sibling-order block of
`refine_candidate_nodes` (lines 164-172 and 189-197): the block runs when
`!T1.is_root(v) && T2.label(w) != T2.parent(v)->label`, and it touches the
entry of `x` when `x` is a child of `v`'s parent with `v->order < x->order`.
The source dereferences `T2.parent(v)` without a null check; a non-root node
of a well-formed tree always has a parent, so the `none` case below is
unreachable on the states the program builds. -/
def siblingCondB (env : TEnv) (v w x : Nat) : Bool :=
  !decide (v = env.root1) &&
    (match env.parent v with
     | some p =>
         !decide (env.label w = env.label p) &&
           decide (x ∈ env.children p) && decide (env.order v < env.order x)
     | none => false)

/-- Embedding of `refine_candidate_nodes` (lines 148-200).  The C++ function
receives the candidate map by reference and erases elements in place; this
definition denotes the value stored in that by-reference argument when the
call returns, described entry by entry.  The first erase loop (`for (auto&
pair : C)`) visits the entries of the map, whose keys are exactly the T1
nodes, and skips `x == v`; the child loop indexes `C[child]`; the sibling
loop indexes `C[sibling]` for later siblings.  In the source the erase
predicate of the sibling block is `y != T2.dummy && w->order > y->order`. -/
def refineCandidateNodes (env : TEnv) (C : Nat → List Nat) (v w : Nat) : Nat → List Nat :=
  fun x =>
    if w = env.dummy then
      let c1 := if x ∈ env.t1nodes ∧ x ≠ v then (C x).filter (fun y => decide (y ≠ w)) else C x
      let c2 := if x ∈ env.children v then c1.filter (fun y => decide (y = env.dummy)) else c1
      if siblingCondB env v w x then
        c2.filter (fun y => !decide (y ≠ env.dummy ∧ env.order y < env.order w))
      else c2
    else
      let c1 := if x ∈ env.t1nodes ∧ x ≠ v then (C x).filter (fun y => decide (y ≠ w)) else C x
      let c2 :=
        if x ∈ env.children v then
          c1.filter (fun y => !decide (y ≠ env.dummy ∧ ¬ env.parent y = some w))
        else c1
      if siblingCondB env v w x then
        c2.filter (fun y => !decide (y ≠ env.dummy ∧ env.order y < env.order w))
      else c2

/-- The `isLast` test of `extend_tree_edit` (lines 211-217): `v` is last in
preorder when no T1 node has a strictly larger preorder index. -/
def isLast (env : TEnv) (v : Nat) : Bool :=
  !(env.t1nodes.any (fun node => decide (env.order v < env.order node)))

/-- One iteration of the `next_v` selection loop of `extend_tree_edit`
(lines 223-230): keep the current best `acc` unless `node` has order
strictly between `v`'s order and the best order found so far (`min_order`
starts at `INT_MAX`, so the first qualifying node is always taken). -/
def nextStep (env : TEnv) (v : Nat) (acc : Option Nat) (node : Nat) : Option Nat :=
  match acc with
  | none => if env.order v < env.order node then some node else none
  | some m =>
      if env.order v < env.order node ∧ env.order node < env.order m then some node
      else some m

/-- The `next_v` computation of `extend_tree_edit`: the T1 node of minimal
preorder index strictly greater than `v`'s, or `none` if there is none. -/
def nextV (env : TEnv) (v : Nat) : Option Nat :=
  env.t1nodes.foldl (nextStep env v) none

/-- Embedding of `extend_tree_edit` (lines 203-236).  For each candidate `w`
of `v` the mapping is extended with `v -> w`; if `v` is last in preorder the
extended mapping is appended to the solution list, otherwise the candidate
map is copied (`map N = C`), refined in place for the assignment, and the
search recurses on the next node in preorder.  The solutions produced by the
branches are collected in iteration order, matching the appends to `L`.  The
C++ recursion terminates because `next_v` strictly increases the preorder
index; `fuel` bounds the recursion depth and `backtrackingTreeEdit` supplies
`|T1.nodes|`, which is more than the number of remaining nodes. -/
def extendTreeEdit (env : TEnv) : Nat → List (Nat × Nat) → (Nat → List Nat) → Nat →
    List (List (Nat × Nat))
  | 0, _, _, _ => []
  | fuel + 1, M, C, v =>
    collectBranches
      (fun w =>
        if isLast env v then [mapInsert M v w]
        else
          match nextV env v with
          | some nv => extendTreeEdit env fuel (mapInsert M v w) (refineCandidateNodes env C v w) nv
          | none => [])
      (C v)

/-- Embedding of `backtracking_tree_edit` (lines 239-253) on an environment
that already reflects the preorder traversals and the dummy allocation: the
search starts at `T1.root` with the initial candidate map and an empty
mapping. -/
def backtrackingTreeEdit (env : TEnv) : List (List (Nat × Nat)) :=
  extendTreeEdit env env.t1nodes.length [] (setUpCandidateNodes env) env.root1

/-- Embedding of `calculateEditDistance` (lines 293-318): count the entries
mapped to the dummy node (deletions), collect the non-dummy images
(`mapped_T2_nodes`, a set, so membership is what matters), and count the
ordinary T2 nodes that are not an image (insertions). -/
def calculateEditDistance (env : TEnv) (M : List (Nat × Nat)) : Nat :=
  let deletions := (M.filter (fun p => decide (p.2 = env.dummy))).length
  let mappedT2 := (M.filter (fun p => !decide (p.2 = env.dummy))).map (fun p => p.2)
  let insertions :=
    (env.t2nodes.filter (fun n => decide (n ≠ env.dummy) && !mappedT2.contains n)).length
  deletions + insertions

/-- Facts established by `preorder_tree_traversal`, `preorder_tree_depth`
and `set_up_candidate_nodes` for well-formed input trees: `T1.root` is a T1
node of minimal preorder index, preorder indices are distinct, node lists
hold no duplicate pointers, the dummy node is a member of `T2.nodes`, and
children of T1 nodes are T1 nodes with strictly larger preorder index. -/
def WF (env : TEnv) : Prop :=
  env.root1 ∈ env.t1nodes ∧
  (∀ x ∈ env.t1nodes, env.order env.root1 ≤ env.order x) ∧
  (∀ x ∈ env.t1nodes, ∀ y ∈ env.t1nodes, env.order x = env.order y → x = y) ∧
  env.t1nodes.Nodup ∧
  env.t2nodes.Nodup ∧
  env.dummy ∈ env.t2nodes ∧
  (∀ v ∈ env.t1nodes, ∀ c ∈ env.children v, c ∈ env.t1nodes) ∧
  (∀ v ∈ env.t1nodes, ∀ c ∈ env.children v, env.order v < env.order c)

instance (env : TEnv) : Decidable (WF env) := by
  unfold WF
  exact inferInstance

/-- Construction-time state of a `Tree` object as built by `readTree`:
the labels of the nodes in insertion order, the root (set by `addNode` to
the first node ever added), the child-to-parent pointer assignments
(`child->parent = parent`, last write wins) and the `children` push-backs
in order. -/
structure BTree where
  nodes : List String
  root : Option String
  par : List (String × String)
  chil : List (String × String)
deriving DecidableEq

/-- Embedding of `Tree::addNode` guarded by the `findNode` test in
`readTree` (lines 267-273): append a fresh node and make it the root if
the tree has none yet. -/
def addNodeIfAbsent (t : BTree) (l : String) : BTree :=
  if l ∈ t.nodes then t
  else
    { t with
      nodes := t.nodes ++ [l]
      root := match t.root with | none => some l | some r => some r }

/-- Embedding of `Tree::addEdge` (lines 40-47): if both labels resolve to
nodes, push the child into the parent's `children` and overwrite the
child's `parent` pointer. -/
def addEdgeB (t : BTree) (p c : String) : BTree :=
  if p ∈ t.nodes ∧ c ∈ t.nodes then
    { t with chil := t.chil ++ [(p, c)], par := mapInsert t.par c p }
  else t

/-- Embedding of `readTree` (lines 256-279) on the parsed `(parent, child)`
pairs of the non-comment lines: add both endpoints if absent, then add the
edge.  The function is total: it performs no validation of the edge list
and always returns the constructed tree. -/
def readTree (lines : List (String × String)) : BTree :=
  lines.foldl
    (fun t e => addEdgeB (addNodeIfAbsent (addNodeIfAbsent t e.1) e.2) e.1 e.2)
    ⟨[], none, [], []⟩

/-- Scenario A environment: `T1` a single node `a` (id 1), `T2` a single
node `x` (id 2), dummy id 3.  Orders and depths as assigned by the preorder
traversals; the dummy keeps the constructor defaults `order = 0`,
`depth = -1`. -/
def envA : TEnv where
  t1nodes := [1]
  t2nodes := [2, 3]
  dummy := 3
  root1 := 1
  order := fun _ => 0
  depth := fun n => if n = 3 then -1 else 0
  label := fun n => if n = 1 then "a" else if n = 2 then "x" else "dummy"
  parent := fun _ => none
  children := fun _ => []

/-- Scenario B environment: `T1` a single node `a` (id 1), `T2` the chain
`x -> y` (ids 2, 3), dummy id 4. -/
def envB : TEnv where
  t1nodes := [1]
  t2nodes := [2, 3, 4]
  dummy := 4
  root1 := 1
  order := fun n => if n = 3 then 1 else 0
  depth := fun n => if n = 3 then 1 else if n = 4 then -1 else 0
  label := fun n =>
    if n = 1 then "a" else if n = 2 then "x" else if n = 3 then "y" else "dummy"
  parent := fun n => if n = 3 then some 2 else none
  children := fun n => if n = 2 then [3] else []

/-- Two-chain environment: `T1` is `a -> b` (ids 1, 2), `T2` is `x -> y`
(ids 3, 4), dummy id 5. -/
def env2 : TEnv where
  t1nodes := [1, 2]
  t2nodes := [3, 4, 5]
  dummy := 5
  root1 := 1
  order := fun n => if n = 2 then 1 else if n = 4 then 1 else 0
  depth := fun n => if n = 2 then 1 else if n = 4 then 1 else if n = 5 then -1 else 0
  label := fun n =>
    if n = 1 then "a" else if n = 2 then "b"
    else if n = 3 then "x" else if n = 4 then "y" else "dummy"
  parent := fun n => if n = 2 then some 1 else if n = 4 then some 3 else none
  children := fun n => if n = 1 then [2] else if n = 3 then [4] else []

/-- Three-chain environment: `T1` is `a -> b -> c` (ids 1, 2, 3), `T2` is
`x -> y -> z` (ids 4, 5, 6), dummy id 7. -/
def env3 : TEnv where
  t1nodes := [1, 2, 3]
  t2nodes := [4, 5, 6, 7]
  dummy := 7
  root1 := 1
  order := fun n => if n = 2 ∨ n = 5 then 1 else if n = 3 ∨ n = 6 then 2 else 0
  depth := fun n =>
    if n = 2 ∨ n = 5 then 1 else if n = 3 ∨ n = 6 then 2 else if n = 7 then -1 else 0
  label := fun n =>
    if n = 1 then "a" else if n = 2 then "b" else if n = 3 then "c"
    else if n = 4 then "x" else if n = 5 then "y" else if n = 6 then "z" else "dummy"
  parent := fun n =>
    if n = 2 then some 1 else if n = 3 then some 2
    else if n = 5 then some 4 else if n = 6 then some 5 else none
  children := fun n =>
    if n = 1 then [2] else if n = 2 then [3]
    else if n = 4 then [5] else if n = 5 then [6] else []

/-- Sibling-order environment.  `T1`: root `a` (id 1), its child labelled
`B` (id 2), whose children are `v1` (id 3) and `v2` (id 4).  `T2`: root `x`
(id 5) with children `y1` (id 6) and `y2` (id 8); `y1` has child `c1`
(id 7); `y2` has a child labelled `B` (id 9).  Dummy id 10.  Preorder
indices follow the stack traversal: T1 `1,2,3,4 -> 0,1,2,3`; T2
`5,6,7,8,9 -> 0,1,2,3,4`. -/
def env6 : TEnv where
  t1nodes := [1, 2, 3, 4]
  t2nodes := [5, 6, 7, 8, 9, 10]
  dummy := 10
  root1 := 1
  order := fun n =>
    if n = 2 ∨ n = 6 then 1 else if n = 3 ∨ n = 7 then 2
    else if n = 4 ∨ n = 8 then 3 else if n = 9 then 4 else 0
  depth := fun n =>
    if n = 2 ∨ n = 6 ∨ n = 8 then 1 else if n = 3 ∨ n = 4 ∨ n = 7 ∨ n = 9 then 2
    else if n = 10 then -1 else 0
  label := fun n =>
    if n = 1 then "a" else if n = 2 then "B" else if n = 3 then "v1"
    else if n = 4 then "v2" else if n = 5 then "x" else if n = 6 then "y1"
    else if n = 7 then "c1" else if n = 8 then "y2" else if n = 9 then "B" else "dummy"
  parent := fun n =>
    if n = 2 then some 1 else if n = 3 ∨ n = 4 then some 2
    else if n = 6 ∨ n = 8 then some 5 else if n = 7 then some 6
    else if n = 9 then some 8 else none
  children := fun n =>
    if n = 1 then [2] else if n = 2 then [3, 4] else if n = 5 then [6, 8]
    else if n = 6 then [7] else if n = 8 then [9] else []

/-- A partial mapping on `env6` in which the root `a` is mapped to the T2
root `x` and the node labelled `B` (id 2) is mapped to `y1` (id 6). -/
def M6 : List (Nat × Nat) := [(1, 5), (2, 6)]

theorem mem_collectBranches {α β : Type} (f : α → List β) (l : List α) (b : β) :
    b ∈ collectBranches f l ↔ ∃ a ∈ l, b ∈ f a := by
  induction l with
  | nil => simp [collectBranches]
  | cons a rest ih => simp [collectBranches, ih, List.mem_append]

theorem collectBranches_eq_nil {α β : Type} (f : α → List β) (l : List α)
    (h : ∀ a ∈ l, f a = []) : collectBranches f l = [] := by
  induction l with
  | nil => rfl
  | cons a rest ih =>
      simp [collectBranches, h a (by simp), ih fun x hx => h x (by simp [hx])]

theorem mapInsert_eq_append {α β : Type} [DecidableEq α] (M : List (α × β)) (k : α) (w : β)
    (h : ∀ p ∈ M, p.1 ≠ k) : mapInsert M k w = M ++ [(k, w)] := by
  induction M with
  | nil => rfl
  | cons p rest ih =>
      simp only [mapInsert, if_neg (h p (by simp))]
      simp [ih fun q hq => h q (by simp [hq])]

theorem mlookup_eq_none {α β : Type} [DecidableEq α] (M : List (α × β)) (k : α)
    (h : ∀ p ∈ M, p.1 ≠ k) : mlookup M k = none := by
  induction M with
  | nil => rfl
  | cons p rest ih =>
      simp only [mlookup, if_neg (h p (by simp))]
      exact ih fun q hq => h q (by simp [hq])

theorem mlookup_append {α β : Type} [DecidableEq α] (A B : List (α × β)) (k : α)
    (h : mlookup A k = none) : mlookup (A ++ B) k = mlookup B k := by
  induction A with
  | nil => rfl
  | cons p rest ih =>
      simp only [mlookup] at h ⊢
      by_cases hp : p.1 = k
      · simp [hp] at h
      · simp only [if_neg hp] at h ⊢
        exact ih h

theorem mlookup_some_mem {α β : Type} [DecidableEq α] (M : List (α × β)) (k : α) (w : β)
    (h : mlookup M k = some w) : (k, w) ∈ M := by
  induction M with
  | nil => simp [mlookup] at h
  | cons p rest ih =>
      obtain ⟨a, b⟩ := p
      simp only [mlookup] at h
      by_cases hak : a = k
      · subst hak
        rw [if_pos rfl] at h
        injection h with hb
        subst hb
        exact List.mem_cons_self _ _
      · rw [if_neg hak] at h
        exact List.mem_cons_of_mem _ (ih h)

theorem mlookup_mem_isSome {α β : Type} [DecidableEq α] (M : List (α × β)) (k : α) (w : β)
    (h : (k, w) ∈ M) : ∃ u, mlookup M k = some u := by
  induction M with
  | nil => simp at h
  | cons p rest ih =>
      by_cases hp : p.1 = k
      · exact ⟨p.2, by simp [mlookup, hp]⟩
      · rcases List.mem_cons.mp h with h1 | h1
        · exact absurd (congrArg Prod.fst h1.symm) hp
        · obtain ⟨u, hu⟩ := ih h1
          exact ⟨u, by simpa [mlookup, if_neg hp] using hu⟩

theorem mlookup_pairwise_distinct {α β : Type} [DecidableEq α] (M : List (α × β))
    (hp : M.Pairwise (fun p q => p.1 ≠ q.1 ∧ p.2 ≠ q.2)) (v1 v2 : α) (w1 w2 : β)
    (h1 : mlookup M v1 = some w1) (h2 : mlookup M v2 = some w2) (hne : v1 ≠ v2) : w1 ≠ w2 := by
  induction M with
  | nil => simp [mlookup] at h1
  | cons p rest ih =>
      obtain ⟨a, b⟩ := p
      have hhead := (List.pairwise_cons.mp hp).1
      have hrest := (List.pairwise_cons.mp hp).2
      simp only [mlookup] at h1 h2
      by_cases ha1 : a = v1
      · have ha2 : ¬ a = v2 := fun h => hne (ha1.symm.trans h)
        rw [if_pos ha1] at h1
        rw [if_neg ha2] at h2
        injection h1 with hb
        subst hb
        exact (hhead _ (mlookup_some_mem rest v2 w2 h2)).2
      · rw [if_neg ha1] at h1
        by_cases ha2 : a = v2
        · rw [if_pos ha2] at h2
          injection h2 with hb
          subst hb
          intro heq
          exact (hhead _ (mlookup_some_mem rest v1 w1 h1)).2 heq.symm
        · rw [if_neg ha2] at h2
          exact ih hrest h1 h2

theorem keys_nodup_of_pairwise {α β : Type} (M : List (α × β))
    (hp : M.Pairwise (fun p q => p.1 ≠ q.1 ∧ p.2 ≠ q.2)) : (M.map Prod.fst).Nodup := by
  exact List.pairwise_map.mpr (hp.imp fun h => h.1)

theorem filter_snd_length_le_one {α β : Type} [DecidableEq β] (M : List (α × β)) (d : β)
    (hp : M.Pairwise (fun p q => p.2 ≠ q.2)) :
    (M.filter (fun p => decide (p.2 = d))).length ≤ 1 := by
  induction M with
  | nil => simp
  | cons p rest ih =>
      have hhead := (List.pairwise_cons.mp hp).1
      have hrest := (List.pairwise_cons.mp hp).2
      by_cases hpd : p.2 = d
      · have : rest.filter (fun q => decide (q.2 = d)) = [] := by
          rw [List.filter_eq_nil_iff]
          intro q hq
          simp only [decide_eq_true_eq]
          exact fun h => hhead q hq (hpd.trans h.symm)
        simp [List.filter_cons, hpd, this]
      · simpa [List.filter_cons, hpd] using ih hrest

theorem dummy_mem_setUp (env : TEnv) (x : Nat) :
    env.dummy ∈ setUpCandidateNodes env x := by
  simp [setUpCandidateNodes]

theorem setUp_subset (env : TEnv) (hd : env.dummy ∈ env.t2nodes) (x u : Nat)
    (hu : u ∈ setUpCandidateNodes env x) : u ∈ env.t2nodes := by
  simp only [setUpCandidateNodes, List.mem_cons] at hu
  rcases hu with rfl | hu
  · exact hd
  · exact List.mem_of_mem_filter hu

theorem ite_filter_subset {α : Type} {b : Prop} [Decidable b] {l : List α} {p : α → Bool}
    {z : α} (h : z ∈ (if b then l.filter p else l)) : z ∈ l := by
  split at h
  · exact List.mem_of_mem_filter h
  · exact h

theorem mem_ite_filter {α : Type} {b : Prop} [Decidable b] {l : List α} {p : α → Bool}
    {z : α} (h1 : z ∈ l) (h2 : p z = true) : z ∈ (if b then l.filter p else l) := by
  split
  · exact List.mem_filter.mpr ⟨h1, h2⟩
  · exact h1

theorem refine_subset (env : TEnv) (C : Nat → List Nat) (v w x y : Nat)
    (h : y ∈ refineCandidateNodes env C v w x) : y ∈ C x := by
  simp only [refineCandidateNodes] at h
  split at h <;> exact ite_filter_subset (ite_filter_subset (ite_filter_subset h))

theorem refine_not_mem_assigned (env : TEnv) (C : Nat → List Nat) (v w x : Nat)
    (hx1 : x ∈ env.t1nodes) (hxv : x ≠ v) :
    w ∉ refineCandidateNodes env C v w x := by
  intro h
  simp only [refineCandidateNodes,
    if_pos (show x ∈ env.t1nodes ∧ x ≠ v from ⟨hx1, hxv⟩)] at h
  have hmem : w ∈ (C x).filter (fun y => decide (y ≠ w)) := by
    split at h <;> exact ite_filter_subset (ite_filter_subset h)
  have := (List.mem_filter.mp hmem).2
  simp at this

theorem refine_keeps_dummy (env : TEnv) (C : Nat → List Nat) (v w x : Nat)
    (hw : w ≠ env.dummy) (h : env.dummy ∈ C x) :
    env.dummy ∈ refineCandidateNodes env C v w x := by
  simp only [refineCandidateNodes, if_neg hw]
  apply mem_ite_filter
  · apply mem_ite_filter
    · apply mem_ite_filter h
      simp [Ne.symm hw]
    · simp
  · simp

theorem refine_child_collapse (env : TEnv) (C : Nat → List Nat) (v x : Nat)
    (hx1 : x ∈ env.t1nodes) (hxv : x ≠ v) (hc : x ∈ env.children v) :
    refineCandidateNodes env C v env.dummy x = [] := by
  have hc2 : ((C x).filter (fun y => decide (y ≠ env.dummy))).filter
      (fun y => decide (y = env.dummy)) = [] := by
    rw [List.filter_filter]
    apply List.filter_eq_nil_iff.mpr
    intro a _
    simp
  simp only [refineCandidateNodes, eq_self_iff_true, if_true,
    if_pos (show x ∈ env.t1nodes ∧ x ≠ v from ⟨hx1, hxv⟩), if_pos hc]
  split
  · rw [hc2]
    rfl
  · exact hc2

theorem refine_sibling_lower_bound (env : TEnv) (C : Nat → List Nat) (v w x y : Nat)
    (hs : siblingCondB env v w x = true)
    (hy : y ∈ refineCandidateNodes env C v w x) (hyd : y ≠ env.dummy) :
    env.order w ≤ env.order y := by
  simp only [refineCandidateNodes, hs, if_true] at hy
  split at hy <;>
  · have h2 := (List.mem_filter.mp hy).2
    simp only [Bool.not_eq_true', decide_eq_false_iff_not, not_and, not_lt] at h2
    exact h2 hyd

theorem nextStep_gt (env : TEnv) (v : Nat) (acc : Option Nat) (node m : Nat)
    (hacc : ∀ m0, acc = some m0 → env.order v < env.order m0)
    (h : nextStep env v acc node = some m) : env.order v < env.order m := by
  cases acc with
  | none =>
      simp only [nextStep] at h
      split at h
      · next hc =>
          injection h with h1
          subst h1
          exact hc
      · exact absurd h (by simp)
  | some m0 =>
      simp only [nextStep] at h
      split at h
      · next hc =>
          injection h with h1
          subst h1
          exact hc.1
      · injection h with h1
        subst h1
        exact hacc _ rfl

theorem nextStep_none_facts (env : TEnv) (v : Nat) (acc : Option Nat) (node : Nat)
    (h : nextStep env v acc node = none) :
    acc = none ∧ ¬ env.order v < env.order node := by
  cases acc with
  | none =>
      simp only [nextStep] at h
      split at h
      · exact absurd h (by simp)
      · next hc => exact ⟨rfl, hc⟩
  | some m0 =>
      simp only [nextStep] at h
      split at h <;> exact absurd h (by simp)

theorem nextStep_mem_or (env : TEnv) (v : Nat) (acc : Option Nat) (node m : Nat)
    (h : nextStep env v acc node = some m) : m = node ∨ acc = some m := by
  cases acc with
  | none =>
      simp only [nextStep] at h
      split at h
      · injection h with h1
        exact Or.inl h1.symm
      · exact absurd h (by simp)
  | some m0 =>
      simp only [nextStep] at h
      split at h <;> injection h with h1
      · exact Or.inl h1.symm
      · exact Or.inr (by rw [h1])

theorem nextStep_min (env : TEnv) (v : Nat) (acc : Option Nat) (node m m0 : Nat)
    (h : nextStep env v acc node = some m) (hacc : acc = some m0) :
    env.order m ≤ env.order m0 := by
  subst hacc
  simp only [nextStep] at h
  split at h
  · next hc =>
      injection h with h1
      subst h1
      exact Nat.le_of_lt hc.2
  · injection h with h1
    subst h1
    exact Nat.le_refl _

theorem nextStep_le_node (env : TEnv) (v : Nat) (acc : Option Nat) (node m : Nat)
    (h : nextStep env v acc node = some m) (hnode : env.order v < env.order node) :
    env.order m ≤ env.order node := by
  cases acc with
  | none =>
      simp only [nextStep] at h
      rw [if_pos hnode] at h
      injection h with h1
      subst h1
      exact Nat.le_refl _
  | some m0 =>
      simp only [nextStep] at h
      by_cases hc : env.order v < env.order node ∧ env.order node < env.order m0
      · rw [if_pos hc] at h
        injection h with h1
        subst h1
        exact Nat.le_refl _
      · rw [if_neg hc] at h
        injection h with h1
        subst h1
        exact Nat.le_of_not_lt fun hlt => hc ⟨hnode, hlt⟩

theorem nextV_aux_gt (env : TEnv) (v : Nat) :
    ∀ (l : List Nat) (acc : Option Nat) (nv : Nat),
      (∀ m, acc = some m → env.order v < env.order m) →
      l.foldl (nextStep env v) acc = some nv →
      env.order v < env.order nv ∧ (nv ∈ l ∨ acc = some nv) := by
  intro l
  induction l with
  | nil =>
      intro acc nv hacc h
      exact ⟨hacc nv h, Or.inr h⟩
  | cons a rest ih =>
      intro acc nv hacc h
      simp only [List.foldl_cons] at h
      have hacc2 : ∀ m, nextStep env v acc a = some m → env.order v < env.order m :=
        fun m hm => nextStep_gt env v acc a m hacc hm
      obtain ⟨h1, h2⟩ := ih (nextStep env v acc a) nv hacc2 h
      refine ⟨h1, ?_⟩
      rcases h2 with h2 | h2
      · exact Or.inl (List.mem_cons_of_mem _ h2)
      · rcases nextStep_mem_or env v acc a nv h2 with h3 | h3
        · exact Or.inl (h3 ▸ List.mem_cons_self _ _)
        · exact Or.inr h3

theorem nextV_aux_min (env : TEnv) (v : Nat) :
    ∀ (l : List Nat) (acc : Option Nat) (nv : Nat),
      l.foldl (nextStep env v) acc = some nv →
      (∀ m, acc = some m → env.order nv ≤ env.order m) ∧
      (∀ x ∈ l, env.order v < env.order x → env.order nv ≤ env.order x) := by
  intro l
  induction l with
  | nil =>
      intro acc nv h
      simp only [List.foldl_nil] at h
      refine ⟨fun m hm => ?_, by simp⟩
      rw [h] at hm
      obtain rfl : nv = m := by injection hm
      exact Nat.le_refl _
  | cons a rest ih =>
      intro acc nv h
      simp only [List.foldl_cons] at h
      obtain ⟨ih1, ih2⟩ := ih (nextStep env v acc a) nv h
      constructor
      · intro m hm
        subst hm
        cases hstep : nextStep env v (some m) a with
        | none => exact absurd (nextStep_none_facts env v _ a hstep).1 (by simp)
        | some m1 =>
            exact Nat.le_trans (ih1 m1 hstep) (nextStep_min env v (some m) a m1 m hstep rfl)
      · intro x hx hvx
        rcases List.mem_cons.mp hx with rfl | hx
        · cases hstep : nextStep env v acc x with
          | none => exact absurd hvx (nextStep_none_facts env v acc x hstep).2
          | some m1 =>
              exact Nat.le_trans (ih1 m1 hstep) (nextStep_le_node env v acc x m1 hstep hvx)
        · exact ih2 x hx hvx

theorem nextV_aux_none (env : TEnv) (v : Nat) :
    ∀ (l : List Nat) (acc : Option Nat),
      l.foldl (nextStep env v) acc = none →
      acc = none ∧ ∀ x ∈ l, ¬ env.order v < env.order x := by
  intro l
  induction l with
  | nil =>
      intro acc h
      exact ⟨h, by simp⟩
  | cons a rest ih =>
      intro acc h
      simp only [List.foldl_cons] at h
      obtain ⟨h1, h2⟩ := ih (nextStep env v acc a) h
      obtain ⟨h3, h4⟩ := nextStep_none_facts env v acc a h1
      refine ⟨h3, fun x hx => ?_⟩
      rcases List.mem_cons.mp hx with rfl | hx
      · exact h4
      · exact h2 x hx

theorem nextV_some_facts (env : TEnv) (v nv : Nat) (h : nextV env v = some nv) :
    nv ∈ env.t1nodes ∧ env.order v < env.order nv ∧
      ∀ x ∈ env.t1nodes, env.order v < env.order x → env.order nv ≤ env.order x := by
  obtain ⟨h1, h2⟩ := nextV_aux_gt env v env.t1nodes none nv (by simp) h
  obtain ⟨_, h4⟩ := nextV_aux_min env v env.t1nodes none nv h
  rcases h2 with h2 | h2
  · exact ⟨h2, h1, h4⟩
  · exact absurd h2 (by simp)

theorem isLast_true_iff (env : TEnv) (v : Nat) :
    isLast env v = true ↔ ∀ x ∈ env.t1nodes, ¬ env.order v < env.order x := by
  simp [isLast, List.any_eq_true]

theorem filter_length_mono {α : Type} (l : List α) (p q : α → Bool)
    (himp : ∀ a ∈ l, p a = true → q a = true) :
    (l.filter p).length ≤ (l.filter q).length := by
  induction l with
  | nil => simp
  | cons a rest ih =>
      have ih2 := ih fun b hb => himp b (List.mem_cons_of_mem _ hb)
      by_cases hp : p a = true
      · rw [List.filter_cons_of_pos hp, List.filter_cons_of_pos (himp a (by simp) hp)]
        simpa using ih2
      · rw [List.filter_cons_of_neg (by simpa using hp)]
        by_cases hq : q a = true
        · rw [List.filter_cons_of_pos hq]
          exact Nat.le_trans ih2 (by simp)
        · rw [List.filter_cons_of_neg (by simpa using hq)]
          exact ih2

theorem filter_length_strict_mono {α : Type} (l : List α) (p q : α → Bool)
    (himp : ∀ a ∈ l, p a = true → q a = true) (b : α) (hb : b ∈ l)
    (hq : q b = true) (hp : p b = false) :
    (l.filter p).length < (l.filter q).length := by
  induction l with
  | nil => simp at hb
  | cons a rest ih =>
      have himp2 : ∀ x ∈ rest, p x = true → q x = true :=
        fun x hx => himp x (List.mem_cons_of_mem _ hx)
      rcases List.mem_cons.mp hb with rfl | hb2
      · rw [List.filter_cons_of_neg (by simp [hp]), List.filter_cons_of_pos hq]
        exact Nat.lt_succ_of_le (filter_length_mono rest p q himp2)
      · have ih2 := ih himp2 hb2
        by_cases hpa : p a = true
        · rw [List.filter_cons_of_pos hpa, List.filter_cons_of_pos (himp a (by simp) hpa)]
          simpa using ih2
        · rw [List.filter_cons_of_neg (by simpa using hpa)]
          by_cases hqa : q a = true
          · rw [List.filter_cons_of_pos hqa]
            exact Nat.lt_succ_of_le (Nat.le_of_lt ih2)
          · rw [List.filter_cons_of_neg (by simpa using hqa)]
            exact ih2

theorem length_filter_ne_nodup {α : Type} [DecidableEq α] (l : List α) (b : α)
    (hn : l.Nodup) (hb : b ∈ l) :
    (l.filter (fun a => !(a == b))).length = l.length - 1 := by
  induction l with
  | nil => simp at hb
  | cons a rest ih =>
      have ha : a ∉ rest := (List.nodup_cons.mp hn).1
      have hrest : rest.Nodup := (List.nodup_cons.mp hn).2
      by_cases hab : a = b
      · subst hab
        rw [List.filter_cons_of_neg (by simp)]
        have hfe : rest.filter (fun x => !(x == a)) = rest := by
          apply List.filter_eq_self.mpr
          intro x hx
          have hxa : x ≠ a := fun he => ha (he ▸ hx)
          simp [hxa]
        rw [hfe]
        simp
      · have hb2 : b ∈ rest := by
          rcases List.mem_cons.mp hb with h1 | h1
          · exact absurd h1.symm hab
          · exact h1
        rw [List.filter_cons_of_pos (by simpa using hab)]
        simp only [List.length_cons]
        rw [ih hrest hb2]
        have hlen : 1 ≤ rest.length := List.length_pos_of_mem hb2
        omega

theorem length_filter_not_contains {α : Type} [DecidableEq α] [LawfulBEq α]
    (s : List α) : ∀ (l : List α), l.Nodup → s.Nodup → (∀ a ∈ s, a ∈ l) →
    (l.filter (fun a => !s.contains a)).length = l.length - s.length := by
  induction s with
  | nil =>
      intro l _ _ _
      have : l.filter (fun a => !(List.contains [] a)) = l := by
        apply List.filter_eq_self.mpr
        intro x _
        simp [List.contains]
      rw [this]
      simp
  | cons b s2 ih =>
      intro l hl hs hsub
      have hbs : b ∉ s2 := (List.nodup_cons.mp hs).1
      have hs2 : s2.Nodup := (List.nodup_cons.mp hs).2
      have hbl : b ∈ l := hsub b (by simp)
      have hstep : l.filter (fun a => !(b :: s2).contains a) =
          (l.filter (fun a => !(a == b))).filter (fun a => !s2.contains a) := by
        rw [List.filter_filter]
        apply List.filter_congr
        intro x _
        simp only [List.contains_cons, Bool.not_or]
        rw [Bool.and_comm]
      rw [hstep]
      have hl2 : (l.filter (fun a => !(a == b))).Nodup := hl.filter _
      have hsub2 : ∀ a ∈ s2, a ∈ l.filter (fun a => !(a == b)) := by
        intro a ha
        refine List.mem_filter.mpr ⟨hsub a (by simp [ha]), ?_⟩
        have hane : a ≠ b := fun he => hbs (he ▸ ha)
        simp [hane]
      rw [ih _ hl2 hs2 hsub2, length_filter_ne_nodup l b hl hbl]
      simp only [List.length_cons]
      omega

theorem nodup_same_mem_length_eq {α : Type} (l1 l2 : List α)
    (h1 : l1.Nodup) (h2 : l2.Nodup) (h : ∀ a, a ∈ l1 ↔ a ∈ l2) :
    l1.length = l2.length :=
  ((List.perm_ext_iff_of_nodup h1 h2).mpr h).length_eq

theorem mem_extendTreeEdit_elim (env : TEnv) (fuel : Nat) (M : List (Nat × Nat))
    (C : Nat → List Nat) (v : Nat) (sol : List (Nat × Nat))
    (h : sol ∈ extendTreeEdit env (fuel + 1) M C v) :
    ∃ w ∈ C v,
      (isLast env v = true ∧ sol = mapInsert M v w) ∨
      (isLast env v = false ∧ ∃ nv, nextV env v = some nv ∧
        sol ∈ extendTreeEdit env fuel (mapInsert M v w) (refineCandidateNodes env C v w) nv) := by
  simp only [extendTreeEdit] at h
  rw [mem_collectBranches] at h
  obtain ⟨w, hw, hsol⟩ := h
  refine ⟨w, hw, ?_⟩
  by_cases hl : isLast env v = true
  · rw [if_pos hl] at hsol
    exact Or.inl ⟨hl, by simpa using hsol⟩
  · rw [if_neg hl] at hsol
    refine Or.inr ⟨by simpa using hl, ?_⟩
    cases hnv : nextV env v with
    | none =>
        rw [hnv] at hsol
        simp at hsol
    | some nv =>
        rw [hnv] at hsol
        exact ⟨nv, rfl, hsol⟩

theorem extend_sols_extend (env : TEnv) :
    ∀ (fuel : Nat) (M : List (Nat × Nat)) (C : Nat → List Nat) (v : Nat),
      (∀ p ∈ M, env.order p.1 < env.order v) →
      ∀ sol ∈ extendTreeEdit env fuel M C v,
        ∃ ext, sol = M ++ ext ∧ ∀ p ∈ ext, env.order v ≤ env.order p.1 := by
  intro fuel
  induction fuel with
  | zero =>
      intro M C v hM sol hsol
      simp [extendTreeEdit] at hsol
  | succ fuel ih =>
      intro M C v hM sol hsol
      obtain ⟨w, hw, hcase⟩ := mem_extendTreeEdit_elim env fuel M C v sol hsol
      have hkeys : ∀ p ∈ M, p.1 ≠ v :=
        fun p hp heq => Nat.lt_irrefl _ (heq ▸ hM p hp)
      have hins : mapInsert M v w = M ++ [(v, w)] := mapInsert_eq_append M v w hkeys
      rcases hcase with ⟨_, rfl⟩ | ⟨_, nv, hnv, hsol2⟩
      · exact ⟨[(v, w)], by rw [hins], by simp⟩
      · obtain ⟨hnv1, hnv2, _⟩ := nextV_some_facts env v nv hnv
        have hM2 : ∀ p ∈ mapInsert M v w, env.order p.1 < env.order nv := by
          rw [hins]
          intro p hp
          rcases List.mem_append.mp hp with hp | hp
          · exact Nat.lt_trans (hM p hp) hnv2
          · obtain rfl : p = (v, w) := by simpa using hp
            exact hnv2
        obtain ⟨ext, hext, hext2⟩ := ih (mapInsert M v w) _ nv hM2 sol hsol2
        refine ⟨(v, w) :: ext, ?_, ?_⟩
        · rw [hext, hins, List.append_assoc]
          rfl
        · intro p hp
          rcases List.mem_cons.mp hp with rfl | hp
          · exact Nat.le_refl _
          · exact Nat.le_of_lt (Nat.lt_of_lt_of_le hnv2 (hext2 p hp))

theorem extend_eq_nil_of_empty (env : TEnv)
    (hinj : ∀ x ∈ env.t1nodes, ∀ y ∈ env.t1nodes, env.order x = env.order y → x = y) :
    ∀ (fuel : Nat) (M : List (Nat × Nat)) (C : Nat → List Nat) (v x : Nat),
      v ∈ env.t1nodes → x ∈ env.t1nodes → env.order v ≤ env.order x → C x = [] →
      extendTreeEdit env fuel M C v = [] := by
  intro fuel
  induction fuel with
  | zero => intros; rfl
  | succ fuel ih =>
      intro M C v x hv hx hvx hCx
      by_cases hxv : x = v
      · subst hxv
        simp [extendTreeEdit, hCx, collectBranches]
      · have hlt : env.order v < env.order x :=
          Nat.lt_of_le_of_ne hvx fun he => hxv (hinj x hx v hv he.symm)
        have hl : isLast env v = false := by
          rw [Bool.eq_false_iff]
          intro hl2
          exact (isLast_true_iff env v).mp hl2 x hx hlt
        simp only [extendTreeEdit]
        apply collectBranches_eq_nil
        intro w _
        rw [if_neg (by simp [hl])]
        cases hnv : nextV env v with
        | none => rfl
        | some nv =>
            obtain ⟨hnv1, _, hnv3⟩ := nextV_some_facts env v nv hnv
            have hCx2 : refineCandidateNodes env C v w x = [] := by
              rw [List.eq_nil_iff_forall_not_mem]
              intro y hy
              have := refine_subset env C v w x y hy
              rw [hCx] at this
              simp at this
            exact ih (mapInsert M v w) _ nv x hnv1 hx (hnv3 x hx hlt) hCx2

theorem extend_invariant (env : TEnv) :
    ∀ (fuel : Nat) (M : List (Nat × Nat)) (C : Nat → List Nat) (v : Nat),
      v ∈ env.t1nodes →
      (∀ p ∈ M, env.order p.1 < env.order v ∧ p.1 ∈ env.t1nodes ∧ p.2 ∈ env.t2nodes) →
      M.Pairwise (fun p q => p.1 ≠ q.1 ∧ p.2 ≠ q.2) →
      (∀ x ∈ env.t1nodes, env.order v ≤ env.order x →
        ∀ u ∈ C x, u ∈ env.t2nodes ∧ ∀ p ∈ M, p.2 ≠ u) →
      ∀ sol ∈ extendTreeEdit env fuel M C v,
        (∀ p ∈ sol, p.1 ∈ env.t1nodes ∧ p.2 ∈ env.t2nodes) ∧
        sol.Pairwise (fun p q => p.1 ≠ q.1 ∧ p.2 ≠ q.2) := by
  intro fuel
  induction fuel with
  | zero =>
      intro M C v _ _ _ _ sol hsol
      simp [extendTreeEdit] at hsol
  | succ fuel ih =>
      intro M C v hv hM hMp hC sol hsol
      obtain ⟨w, hw, hcase⟩ := mem_extendTreeEdit_elim env fuel M C v sol hsol
      have hkeys : ∀ p ∈ M, p.1 ≠ v :=
        fun p hp heq => Nat.lt_irrefl _ (heq ▸ (hM p hp).1)
      have hins : mapInsert M v w = M ++ [(v, w)] := mapInsert_eq_append M v w hkeys
      obtain ⟨hwT2, hwfresh⟩ := hC v hv (Nat.le_refl _) w hw
      have hmem2 : ∀ p ∈ mapInsert M v w, p.1 ∈ env.t1nodes ∧ p.2 ∈ env.t2nodes := by
        rw [hins]
        intro p hp
        rcases List.mem_append.mp hp with hp | hp
        · exact ⟨(hM p hp).2.1, (hM p hp).2.2⟩
        · obtain rfl : p = (v, w) := by simpa using hp
          exact ⟨hv, hwT2⟩
      have hpair2 : (mapInsert M v w).Pairwise (fun p q => p.1 ≠ q.1 ∧ p.2 ≠ q.2) := by
        rw [hins]
        rw [List.pairwise_append]
        refine ⟨hMp, by simp, ?_⟩
        intro p hp q hq
        obtain rfl : q = (v, w) := by simpa using hq
        exact ⟨hkeys p hp, hwfresh p hp⟩
      rcases hcase with ⟨_, rfl⟩ | ⟨_, nv, hnv, hsol2⟩
      · exact ⟨hmem2, hpair2⟩
      · obtain ⟨hnv1, hnv2, _⟩ := nextV_some_facts env v nv hnv
        refine ih (mapInsert M v w) _ nv hnv1 ?_ hpair2 ?_ sol hsol2
        · rw [hins]
          intro p hp
          rcases List.mem_append.mp hp with hp | hp
          · exact ⟨Nat.lt_trans (hM p hp).1 hnv2, (hM p hp).2.1, (hM p hp).2.2⟩
          · obtain rfl : p = (v, w) := by simpa using hp
            exact ⟨hnv2, hv, hwT2⟩
        · intro x hx hnvx u hu
          have hvx : env.order v ≤ env.order x :=
            Nat.le_trans (Nat.le_of_lt hnv2) hnvx
          have hxv : x ≠ v := by
            intro he
            subst he
            exact Nat.lt_irrefl _ (Nat.lt_of_lt_of_le hnv2 hnvx)
          have huC : u ∈ C x := refine_subset env C v w x u hu
          obtain ⟨huT2, hufresh⟩ := hC x hx hvx u huC
          refine ⟨huT2, ?_⟩
          rw [hins]
          intro p hp
          rcases List.mem_append.mp hp with hp | hp
          · exact hufresh p hp
          · obtain rfl : p = (v, w) := by simpa using hp
            intro he
            subst he
            exact refine_not_mem_assigned env C v w x hx hxv hu

theorem mlookup_append_left {α β : Type} [DecidableEq α] (A B : List (α × β)) (k : α) (u : β)
    (h : mlookup A k = some u) : mlookup (A ++ B) k = some u := by
  induction A with
  | nil => simp [mlookup] at h
  | cons p rest ih =>
      simp only [mlookup] at h ⊢
      by_cases hp : p.1 = k
      · rwa [if_pos hp] at h ⊢
      · rw [if_neg hp] at h ⊢
        exact ih h

theorem extend_total (env : TEnv)
    (hinj : ∀ x ∈ env.t1nodes, ∀ y ∈ env.t1nodes, env.order x = env.order y → x = y) :
    ∀ (fuel : Nat) (M : List (Nat × Nat)) (C : Nat → List Nat) (v : Nat),
      v ∈ env.t1nodes →
      (∀ p ∈ M, env.order p.1 < env.order v) →
      (env.t1nodes.filter (fun z => decide (env.order v < env.order z))).length < fuel →
      ∀ sol ∈ extendTreeEdit env fuel M C v,
        ∀ x ∈ env.t1nodes, env.order v ≤ env.order x → ∃ u, mlookup sol x = some u := by
  intro fuel
  induction fuel with
  | zero =>
      intro M C v _ _ hfuel
      exact absurd hfuel (Nat.not_lt_zero _)
  | succ fuel ih =>
      intro M C v hv hM hfuel sol hsol x hx hvx
      obtain ⟨w, hw, hcase⟩ := mem_extendTreeEdit_elim env fuel M C v sol hsol
      have hkeys : ∀ p ∈ M, p.1 ≠ v :=
        fun p hp heq => Nat.lt_irrefl _ (heq ▸ hM p hp)
      have hins : mapInsert M v w = M ++ [(v, w)] := mapInsert_eq_append M v w hkeys
      rcases hcase with ⟨hl, rfl⟩ | ⟨_, nv, hnv, hsol2⟩
      · have hxeq : x = v := by
          have hnot := (isLast_true_iff env v).mp hl x hx
          exact hinj x hx v hv (Nat.le_antisymm (Nat.le_of_not_lt hnot) hvx)
        subst hxeq
        refine ⟨w, ?_⟩
        rw [hins, mlookup_append M _ x (mlookup_eq_none M x hkeys)]
        simp [mlookup]
      · obtain ⟨hnv1, hnv2, hnv3⟩ := nextV_some_facts env v nv hnv
        have hM2 : ∀ p ∈ mapInsert M v w, env.order p.1 < env.order nv := by
          rw [hins]
          intro p hp
          rcases List.mem_append.mp hp with hp | hp
          · exact Nat.lt_trans (hM p hp) hnv2
          · obtain rfl : p = (v, w) := by simpa using hp
            exact hnv2
        by_cases hxv : x = v
        · subst hxv
          obtain ⟨ext, rfl, _⟩ :=
            extend_sols_extend env fuel (mapInsert M x w) _ nv hM2 sol hsol2
          refine ⟨w, mlookup_append_left _ _ x w ?_⟩
          rw [hins, mlookup_append M _ x (mlookup_eq_none M x hkeys)]
          simp [mlookup]
        · have hlt : env.order v < env.order x :=
            Nat.lt_of_le_of_ne hvx fun he => hxv (hinj x hx v hv he.symm)
          have hfuel2 :
              (env.t1nodes.filter (fun z => decide (env.order nv < env.order z))).length
                < fuel := by
            have hstrict := filter_length_strict_mono env.t1nodes
              (fun z => decide (env.order nv < env.order z))
              (fun z => decide (env.order v < env.order z))
              (fun a _ ha => by
                simp only [decide_eq_true_eq] at ha ⊢
                exact Nat.lt_trans hnv2 ha)
              nv hnv1 (by simpa using hnv2) (by simp)
            omega
          exact ih (mapInsert M v w) _ nv hnv1 hM2 hfuel2 sol hsol2 x hx (hnv3 x hx hlt)

theorem extend_parents_not_dummy (env : TEnv)
    (hinj : ∀ x ∈ env.t1nodes, ∀ y ∈ env.t1nodes, env.order x = env.order y → x = y)
    (hcm : ∀ v ∈ env.t1nodes, ∀ c ∈ env.children v, c ∈ env.t1nodes)
    (hco : ∀ v ∈ env.t1nodes, ∀ c ∈ env.children v, env.order v < env.order c) :
    ∀ (fuel : Nat) (M : List (Nat × Nat)) (C : Nat → List Nat) (v : Nat),
      v ∈ env.t1nodes →
      (∀ p ∈ M, env.order p.1 < env.order v) →
      ∀ sol ∈ extendTreeEdit env fuel M C v,
        ∀ x ∈ env.t1nodes, env.order v ≤ env.order x → env.children x ≠ [] →
          mlookup sol x ≠ some env.dummy := by
  intro fuel
  induction fuel with
  | zero =>
      intro M C v _ _ sol hsol
      simp [extendTreeEdit] at hsol
  | succ fuel ih =>
      intro M C v hv hM sol hsol x hx hvx hchx
      obtain ⟨w, hw, hcase⟩ := mem_extendTreeEdit_elim env fuel M C v sol hsol
      have hkeys : ∀ p ∈ M, p.1 ≠ v :=
        fun p hp heq => Nat.lt_irrefl _ (heq ▸ hM p hp)
      have hins : mapInsert M v w = M ++ [(v, w)] := mapInsert_eq_append M v w hkeys
      rcases hcase with ⟨hl, rfl⟩ | ⟨_, nv, hnv, hsol2⟩
      · have hxeq : x = v := by
          have hnot := (isLast_true_iff env v).mp hl x hx
          exact hinj x hx v hv (Nat.le_antisymm (Nat.le_of_not_lt hnot) hvx)
        subst hxeq
        obtain ⟨c, hc⟩ := List.exists_mem_of_ne_nil _ hchx
        exact absurd (hco x hx c hc) ((isLast_true_iff env x).mp hl c (hcm x hx c hc))
      · obtain ⟨hnv1, hnv2, hnv3⟩ := nextV_some_facts env v nv hnv
        have hM2 : ∀ p ∈ mapInsert M v w, env.order p.1 < env.order nv := by
          rw [hins]
          intro p hp
          rcases List.mem_append.mp hp with hp | hp
          · exact Nat.lt_trans (hM p hp) hnv2
          · obtain rfl : p = (v, w) := by simpa using hp
            exact hnv2
        by_cases hxv : x = v
        · subst hxv
          have hwd : w ≠ env.dummy := by
            intro he
            subst he
            obtain ⟨c, hc⟩ := List.exists_mem_of_ne_nil _ hchx
            have hcc : c ∈ env.t1nodes := hcm x hx c hc
            have hcord : env.order x < env.order c := hco x hx c hc
            have hcx : c ≠ x := fun he2 => Nat.lt_irrefl _ (he2 ▸ hcord)
            have hempty : refineCandidateNodes env C x env.dummy c = [] :=
              refine_child_collapse env C x c hcc hcx hc
            have hnil := extend_eq_nil_of_empty env hinj fuel
              (mapInsert M x env.dummy) _ nv c hnv1 hcc (hnv3 c hcc hcord) hempty
            rw [hnil] at hsol2
            simp at hsol2
          obtain ⟨ext, rfl, _⟩ :=
            extend_sols_extend env fuel (mapInsert M x w) _ nv hM2 sol hsol2
          have hlook : mlookup (mapInsert M x w ++ ext) x = some w := by
            apply mlookup_append_left
            rw [hins, mlookup_append M _ x (mlookup_eq_none M x hkeys)]
            simp [mlookup]
          rw [hlook]
          intro he
          exact hwd (by injection he)
        · have hlt : env.order v < env.order x :=
            Nat.lt_of_le_of_ne hvx fun he => hxv (hinj x hx v hv he.symm)
          exact ih (mapInsert M v w) _ nv hnv1 hM2 sol hsol2 x hx (hnv3 x hx hlt) hchx

theorem length_filter_add_length_not {α : Type} (l : List α) (p : α → Bool) :
    (l.filter p).length + (l.filter (fun a => !p a)).length = l.length := by
  induction l with
  | nil => rfl
  | cons a rest ih =>
      by_cases hp : p a = true
      · rw [List.filter_cons_of_pos hp, List.filter_cons_of_neg (by simp [hp])]
        simp only [List.length_cons]
        omega
      · rw [List.filter_cons_of_neg hp, List.filter_cons_of_pos (by simp [hp])]
        simp only [List.length_cons]
        omega

/-- C1 counterexample: with `T1 = a -> b` (ids 1, 2) and `T2 = x -> y`, the
first branch explored by the driver assigns the root `a` to the dummy node
and refines the initial candidate map for that assignment; in the refined
map the not-yet-assigned node `b` has candidate list `[]` — in particular
the DELETE sentinel is no longer a candidate of `b`, because the first
erase loop of `refine_candidate_nodes` removes the dummy from every other
entry when `w` is the dummy. -/
theorem deleteCandidate_lost_counterexample :
    env2.dummy ∈ setUpCandidateNodes env2 env2.root1 ∧
    refineCandidateNodes env2 (setUpCandidateNodes env2) 1 env2.dummy 2 = [] ∧
    env2.dummy ∉ refineCandidateNodes env2 (setUpCandidateNodes env2) 1 env2.dummy 2 := by
  decide

/-- C1 (amended): the DELETE sentinel heads every initial candidate list,
and refining for a non-DELETE image preserves the sentinel in every entry;
but refining for a DELETE image removes the sentinel from the entry of
every other T1 node, so after one deletion no other node can be deleted. -/
theorem deleteSentinel_candidacy (env : TEnv) (C : Nat → List Nat) (v w x : Nat) :
    env.dummy ∈ setUpCandidateNodes env x ∧
    (w ≠ env.dummy → env.dummy ∈ C x → env.dummy ∈ refineCandidateNodes env C v w x) ∧
    (w = env.dummy → x ∈ env.t1nodes → x ≠ v →
      env.dummy ∉ refineCandidateNodes env C v w x) := by
  refine ⟨dummy_mem_setUp env x, fun hw h => refine_keeps_dummy env C v w x hw h, ?_⟩
  intro hw hx1 hxv
  subst hw
  exact refine_not_mem_assigned env C v env.dummy x hx1 hxv

/-- C1 witness: instantiation of the amended statement on the two-chain
environment. -/
theorem deleteSentinel_candidacy_witness :
    env2.dummy ∈ setUpCandidateNodes env2 2 ∧
    env2.dummy ∉ refineCandidateNodes env2 (setUpCandidateNodes env2) 1 env2.dummy 2 :=
  ⟨(deleteSentinel_candidacy env2 (setUpCandidateNodes env2) 1 env2.dummy 2).1,
   (deleteSentinel_candidacy env2 (setUpCandidateNodes env2) 1 env2.dummy 2).2.2 rfl
     (by decide) (by decide)⟩

/-- C2 counterexample: with `T1 = a -> b -> c` (ids 1, 2, 3) and
`T2 = x -> y -> z` (ids 4, 5, 6, dummy 7), refining the initial candidate
map for the assignment of the root `a` to the dummy leaves the transitive
descendant `c` (id 3) with candidate list `[6]` (the ordinary node `z`),
not the one-element list `[DELETE]` the claim requires; only the direct
child is touched by the propagation loop, and even its list becomes `[]`
rather than `[DELETE]`. -/
theorem deletePropagation_counterexample :
    3 ∈ env3.children 2 ∧ 2 ∈ env3.children 1 ∧
    refineCandidateNodes env3 (setUpCandidateNodes env3) 1 env3.dummy 3 = [6] ∧
    refineCandidateNodes env3 (setUpCandidateNodes env3) 1 env3.dummy 3 ≠ [env3.dummy] := by
  decide

/-- C2 (amended): when the refiner is applied for an assignment of `v` to
DELETE, every direct child of `v` has its candidate list collapsed to the
empty list (the first erase loop removes DELETE from the child's entry, the
child loop then removes every non-DELETE node); deeper descendants are not
collapsed. -/
theorem deletePropagation_direct_children (env : TEnv) (C : Nat → List Nat) (v c : Nat)
    (hc : c ∈ env.children v) (hct : c ∈ env.t1nodes) (hne : c ≠ v) :
    refineCandidateNodes env C v env.dummy c = [] :=
  refine_child_collapse env C v c hct hne hc

/-- C2 witness: instantiation of the amended statement on the three-chain
environment. -/
theorem deletePropagation_direct_children_witness :
    (2 ∈ env3.children 1 ∧ 2 ∈ env3.t1nodes ∧ (2 : Nat) ≠ 1) ∧
    refineCandidateNodes env3 (setUpCandidateNodes env3) 1 env3.dummy 2 = [] :=
  ⟨⟨by decide, by decide, by decide⟩,
   deletePropagation_direct_children env3 (setUpCandidateNodes env3) 1 2
     (by decide) (by decide) (by decide)⟩

/-- C3 counterexample: on scenario A (single-node trees) the search does
not enumerate exactly one Solution: the dummy node is a candidate of the
root, so the mapping `a -> DELETE` is enumerated as well. -/
theorem scenarioA_counterexample :
    (backtrackingTreeEdit envA).length ≠ 1 := by decide

/-- C3 (amended): on scenario A the search enumerates exactly two
Solutions, `a -> DELETE` (edit distance 2: one deletion plus the unmatched
`x`) and `a -> x` (edit distance 0). -/
theorem scenarioA_two_solutions :
    backtrackingTreeEdit envA = [[(1, envA.dummy)], [(1, 2)]] ∧
    calculateEditDistance envA [(1, envA.dummy)] = 2 ∧
    calculateEditDistance envA [(1, 2)] = 0 := by decide

/-- C4 counterexample: on scenario B (`T1 = {a}`, `T2 = x -> y`) the
Solution `a -> DELETE` is enumerated but its edit distance is not 2: the
scorer counts one deletion plus two insertions, because neither `x` nor
`y` is an image. -/
theorem scenarioB_counterexample :
    [(1, envB.dummy)] ∈ backtrackingTreeEdit envB ∧
    calculateEditDistance envB [(1, envB.dummy)] ≠ 2 := by decide

/-- C4 (amended): on scenario B the search enumerates exactly two
Solutions; `a -> x` has edit distance 1 (the unmatched `y`), and
`a -> DELETE` has edit distance 3 (one deletion plus insertions for both
`x` and `y`). -/
theorem scenarioB_solutions_and_distances :
    backtrackingTreeEdit envB = [[(1, envB.dummy)], [(1, 2)]] ∧
    calculateEditDistance envB [(1, 2)] = 1 ∧
    calculateEditDistance envB [(1, envB.dummy)] = 3 := by decide

/-- C5 counterexample: on the two-node cycle input (`a b` then `b a`),
`readTree` does not fail: it returns a fully constructed tree with both
nodes, root `a`, and mutually referring parent pointers.  No
`MalformedTreeInput` condition exists anywhere in the construction path. -/
theorem readTree_cycle_counterexample :
    readTree [("a", "b"), ("b", "a")] =
      ⟨["a", "b"], some "a", [("b", "a"), ("a", "b")], [("a", "b"), ("b", "a")]⟩ := by
  decide

/-- C5 (amended): tree construction performs no validation; on the
two-node cycle it returns the tree whose root is the first label read and
whose parent pointers form a cycle, and this tree is handed to the caller. -/
theorem readTree_cycle_returns_tree :
    (readTree [("a", "b"), ("b", "a")]).nodes = ["a", "b"] ∧
    (readTree [("a", "b"), ("b", "a")]).root = some "a" ∧
    mlookup (readTree [("a", "b"), ("b", "a")]).par "a" = some "b" ∧
    mlookup (readTree [("a", "b"), ("b", "a")]).par "b" = some "a" := by decide

/-- C6 counterexample: in `env6`, node `v1` (id 3, non-root, T1 parent the
node labelled `B`, id 2) can be assigned the T2 node id 9 (labelled `B`,
preorder index 4, T2 parent `y2` = id 8).  Under the partial mapping `M6`
the image already chosen for `v1`'s parent is `y1` = id 6, so `w`'s
target-tree parent differs from it and the claim requires every ordinary
node with preorder index < 4 to disappear from the candidate list of the
later sibling `v2` (id 4).  But the source guards the sibling-order
restriction by the label test `T2.label(w) != T2.parent(v)->label`, which
fails here (both labels are `B`), so `c1` (id 7, preorder index 2) stays a
candidate of `v2`. -/
theorem siblingOrder_spec_guard_counterexample :
    (3 : Nat) ≠ env6.root1 ∧
    env6.parent 3 = some 2 ∧
    mlookup M6 2 = some 6 ∧
    env6.parent 9 ≠ mlookup M6 2 ∧
    4 ∈ env6.children 2 ∧
    env6.order 3 < env6.order 4 ∧
    9 ∈ setUpCandidateNodes env6 3 ∧
    7 ∈ refineCandidateNodes env6 (setUpCandidateNodes env6) 3 9 4 ∧
    (7 : Nat) ≠ env6.dummy ∧
    env6.order 7 < env6.order 9 := by decide

/-- C6 (amended): the sibling-order restriction is guarded by a label
comparison, not by comparing `w`'s target-tree parent with the image of
`v`'s parent: whenever `v` is not the root, `w`'s label differs from the
label of `v`'s T1 parent, and `s` is a sibling of `v` with strictly larger
preorder index, every surviving candidate of `s` in the refined map is the
DELETE sentinel or has preorder index at least that of `w`. -/
theorem siblingOrder_label_guard (env : TEnv) (C : Nat → List Nat) (v w s y p1 : Nat)
    (hv : v ≠ env.root1) (hp : env.parent v = some p1)
    (hlab : env.label w ≠ env.label p1)
    (hs : s ∈ env.children p1) (hord : env.order v < env.order s)
    (hy : y ∈ refineCandidateNodes env C v w s) (hyd : y ≠ env.dummy) :
    env.order w ≤ env.order y := by
  apply refine_sibling_lower_bound env C v w s y ?_ hy hyd
  simp [siblingCondB, hv, hp, hlab, hs, hord]

/-- C6 witness: instantiation of the amended statement: with the same
`env6` data but `v1` assigned `c1` (id 7, label `c1` differing from the
parent label `B`), the later sibling `v2` loses the sentinel-distinct
candidates preceding `c1`; id 9 survives and indeed has preorder index at
least that of id 7. -/
theorem siblingOrder_label_guard_witness :
    9 ∈ refineCandidateNodes env6 (setUpCandidateNodes env6) 3 7 4 ∧
    env6.order 7 ≤ env6.order 9 :=
  ⟨by decide,
   siblingOrder_label_guard env6 (setUpCandidateNodes env6) 3 7 4 9 2
     (by decide) (by decide) (by decide) (by decide) (by decide) (by decide) (by decide)⟩

/-- C7: bijectivity of enumerated Solutions: in every Solution returned by
the backtracking search on a well-formed environment, two distinct T1
nodes with non-DELETE images have distinct images.  (The proof goes
through the stronger search invariant that every value already assigned —
the sentinel included — is removed from every other candidate list.) -/
theorem solutions_bijective (env : TEnv) (hwf : WF env)
    (sol : List (Nat × Nat)) (hsol : sol ∈ backtrackingTreeEdit env)
    (v1 v2 w1 w2 : Nat)
    (h1 : mlookup sol v1 = some w1) (h2 : mlookup sol v2 = some w2)
    (hne : v1 ≠ v2) (_hd1 : w1 ≠ env.dummy) (_hd2 : w2 ≠ env.dummy) : w1 ≠ w2 := by
  obtain ⟨hroot, _, _, _, _, hdmem, _, _⟩ := hwf
  have hsol2 : sol ∈ extendTreeEdit env env.t1nodes.length [] (setUpCandidateNodes env)
      env.root1 := hsol
  have hinv := extend_invariant env env.t1nodes.length [] (setUpCandidateNodes env)
    env.root1 hroot (by simp) (by simp)
    (fun x _ _ u hu => ⟨setUp_subset env hdmem x u hu, by simp⟩) sol hsol2
  exact mlookup_pairwise_distinct sol hinv.2 v1 v2 w1 w2 h1 h2 hne

/-- C7 witness: instantiation on the two-chain environment and the
Solution `a -> x, b -> y`. -/
theorem solutions_bijective_witness :
    WF env2 ∧ [(1, 3), (2, 4)] ∈ backtrackingTreeEdit env2 ∧ (3 : Nat) ≠ 4 :=
  ⟨by decide, by decide,
   solutions_bijective env2 (by decide) [(1, 3), (2, 4)] (by decide) 1 2 3 4
     (by decide) (by decide) (by decide) (by decide) (by decide)⟩

/-- C8 counterexample: `refine_candidate_nodes` receives the candidate map
by reference and erases in place, so the value held by its argument after
the call differs from the value before it: refining the initial map of the
two-chain environment for the assignment of the root to the dummy changes
the entry of node `b`.  The freshness the spec attributes to the refiner
is in fact provided by the driver, which copies the map (`map N = C`)
before every call. -/
theorem refine_mutates_counterexample :
    refineCandidateNodes env2 (setUpCandidateNodes env2) 1 env2.dummy 2 ≠
      setUpCandidateNodes env2 2 := by decide

/-- C8 (amended): the refiner rewrites its by-reference argument in place
(the post-call entries generally differ from the pre-call entries), but
every refined entry is a sub-list of the corresponding input entry, and
the driver refines a fresh copy of the current map for each candidate, so
candidate sets only shrink along a branch and sibling branches of
`extend_tree_edit` each start from the same unrefined map. -/
theorem refine_entries_shrink (env : TEnv) (C : Nat → List Nat) (v w x y : Nat)
    (h : y ∈ refineCandidateNodes env C v w x) : y ∈ C x :=
  refine_subset env C v w x y h

/-- C8 witness: instantiation on the two-chain environment. -/
theorem refine_entries_shrink_witness :
    4 ∈ refineCandidateNodes env2 (setUpCandidateNodes env2) 1 3 2 ∧
    4 ∈ setUpCandidateNodes env2 2 :=
  ⟨by decide, refine_entries_shrink env2 (setUpCandidateNodes env2) 1 3 2 4 (by decide)⟩

/-- C9: in every Solution enumerated on a well-formed environment, at most
one T1 node is mapped to the DELETE sentinel (the first erase loop removes
the dummy from every other candidate list as soon as one node is deleted),
and any node mapped to the sentinel is a leaf of T1 (deleting a node with
children empties the children's candidate lists, killing the branch). -/
theorem solutions_delete_at_most_one_and_leaf (env : TEnv) (hwf : WF env)
    (sol : List (Nat × Nat)) (hsol : sol ∈ backtrackingTreeEdit env) :
    (sol.filter (fun p => decide (p.2 = env.dummy))).length ≤ 1 ∧
    (∀ x w, mlookup sol x = some w → w = env.dummy → env.children x = []) := by
  obtain ⟨hroot, hrootmin, hinj, _, _, hdmem, hcm, hco⟩ := hwf
  have hsol2 : sol ∈ extendTreeEdit env env.t1nodes.length [] (setUpCandidateNodes env)
      env.root1 := hsol
  have hinv := extend_invariant env env.t1nodes.length [] (setUpCandidateNodes env)
    env.root1 hroot (by simp) (by simp)
    (fun x _ _ u hu => ⟨setUp_subset env hdmem x u hu, by simp⟩) sol hsol2
  constructor
  · exact filter_snd_length_le_one sol env.dummy (hinv.2.imp fun h => h.2)
  · intro x w hlook hwd
    subst hwd
    by_contra hch
    have hxmem : (x, env.dummy) ∈ sol := mlookup_some_mem sol x _ hlook
    have hx1 : x ∈ env.t1nodes := (hinv.1 _ hxmem).1
    exact extend_parents_not_dummy env hinj hcm hco env.t1nodes.length []
      (setUpCandidateNodes env) env.root1 hroot (by simp) sol hsol2 x hx1
      (hrootmin x hx1) hch hlook

/-- C9 witness: instantiation on the two-chain environment and the
Solution `a -> x, b -> DELETE`. -/
theorem solutions_delete_at_most_one_and_leaf_witness :
    WF env2 ∧ [(1, 3), (2, 5)] ∈ backtrackingTreeEdit env2 ∧
    ([(1, 3), (2, 5)].filter (fun p => decide (p.2 = env2.dummy))).length ≤ 1 ∧
    env2.children 2 = [] :=
  ⟨by decide, by decide,
   (solutions_delete_at_most_one_and_leaf env2 (by decide) [(1, 3), (2, 5)] (by decide)).1,
   (solutions_delete_at_most_one_and_leaf env2 (by decide) [(1, 3), (2, 5)] (by decide)).2
     2 5 (by decide) (by decide)⟩

/-- C10: for every Solution enumerated on a well-formed environment, the
edit distance computed by `calculateEditDistance` equals
`2 * d + n2 - n1` (over the integers), where `d` is the number of entries
mapped to the DELETE sentinel, `n2` the number of ordinary T2 nodes and
`n1` the number of T1 nodes.  The scorer is a pure function of the
Solution, so scoring the same Solution twice trivially yields the same
value. -/
theorem editDistance_formula (env : TEnv) (hwf : WF env)
    (sol : List (Nat × Nat)) (hsol : sol ∈ backtrackingTreeEdit env) :
    (calculateEditDistance env sol : ℤ) =
      2 * ((sol.filter (fun p => decide (p.2 = env.dummy))).length : ℤ) +
        ((env.t2nodes.filter (fun n => decide (n ≠ env.dummy))).length : ℤ) -
        (env.t1nodes.length : ℤ) := by
  obtain ⟨hroot, hrootmin, hinj, hn1, hn2, hdmem, _, _⟩ := hwf
  have hsol2 : sol ∈ extendTreeEdit env env.t1nodes.length [] (setUpCandidateNodes env)
      env.root1 := hsol
  have hinv := extend_invariant env env.t1nodes.length [] (setUpCandidateNodes env)
    env.root1 hroot (by simp) (by simp)
    (fun x _ _ u hu => ⟨setUp_subset env hdmem x u hu, by simp⟩) sol hsol2
  have hfuel : (env.t1nodes.filter
      (fun z => decide (env.order env.root1 < env.order z))).length
        < env.t1nodes.length := by
    have hstrict := filter_length_strict_mono env.t1nodes
      (fun z => decide (env.order env.root1 < env.order z)) (fun _ => true)
      (fun a _ _ => rfl) env.root1 hroot rfl (by simp)
    have hft : env.t1nodes.filter (fun _ => true) = env.t1nodes :=
      List.filter_eq_self.mpr fun _ _ => rfl
    rwa [hft] at hstrict
  have htot := extend_total env hinj env.t1nodes.length [] (setUpCandidateNodes env)
    env.root1 hroot (by simp) hfuel sol hsol2
  have hkeysnodup := keys_nodup_of_pairwise sol hinv.2
  have hkeys_iff : ∀ a, a ∈ sol.map Prod.fst ↔ a ∈ env.t1nodes := by
    intro a
    constructor
    · intro ha
      obtain ⟨p, hp, rfl⟩ := List.mem_map.mp ha
      exact (hinv.1 p hp).1
    · intro ha
      obtain ⟨u, hu⟩ := htot a ha (hrootmin a ha)
      exact List.mem_map.mpr ⟨(a, u), mlookup_some_mem sol a u hu, rfl⟩
  have hsollen : sol.length = env.t1nodes.length := by
    have := nodup_same_mem_length_eq (sol.map Prod.fst) env.t1nodes hkeysnodup hn1 hkeys_iff
    simpa using this
  have hcompl := length_filter_add_length_not sol (fun p => decide (p.2 = env.dummy))
  have hmvnodup : ((sol.filter (fun p => !decide (p.2 = env.dummy))).map
      (fun p => p.2)).Nodup := by
    apply List.pairwise_map.mpr
    exact List.Pairwise.sublist (List.filter_sublist _) (hinv.2.imp fun h => h.2)
  have hmvsub : ∀ a ∈ (sol.filter (fun p => !decide (p.2 = env.dummy))).map (fun p => p.2),
      a ∈ env.t2nodes.filter (fun n => decide (n ≠ env.dummy)) := by
    intro a ha
    obtain ⟨p, hp, rfl⟩ := List.mem_map.mp ha
    have hps := List.mem_filter.mp hp
    refine List.mem_filter.mpr ⟨(hinv.1 p hps.1).2, ?_⟩
    simpa using hps.2
  have hmvle : ((sol.filter (fun p => !decide (p.2 = env.dummy))).map
        (fun p => p.2)).length ≤
      (env.t2nodes.filter (fun n => decide (n ≠ env.dummy))).length :=
    (List.subperm_of_subset hmvnodup hmvsub).length_le
  have hins_eq : (env.t2nodes.filter (fun n => decide (n ≠ env.dummy) &&
        !((sol.filter (fun p => !decide (p.2 = env.dummy))).map
          (fun p => p.2)).contains n)).length =
      (env.t2nodes.filter (fun n => decide (n ≠ env.dummy))).length -
        ((sol.filter (fun p => !decide (p.2 = env.dummy))).map (fun p => p.2)).length := by
    have hsplit : env.t2nodes.filter (fun n => decide (n ≠ env.dummy) &&
          !((sol.filter (fun p => !decide (p.2 = env.dummy))).map
            (fun p => p.2)).contains n) =
        (env.t2nodes.filter (fun n => decide (n ≠ env.dummy))).filter
          (fun n => !((sol.filter (fun p => !decide (p.2 = env.dummy))).map
            (fun p => p.2)).contains n) := by
      rw [List.filter_filter]
      apply List.filter_congr
      intro x _
      rw [Bool.and_comm]
    rw [hsplit]
    exact length_filter_not_contains _ _ (hn2.filter _) hmvnodup hmvsub
  have hmvlen : ((sol.filter (fun p => !decide (p.2 = env.dummy))).map
        (fun p => p.2)).length =
      (sol.filter (fun p => !decide (p.2 = env.dummy))).length := by simp
  have hdist : calculateEditDistance env sol =
      (sol.filter (fun p => decide (p.2 = env.dummy))).length +
      (env.t2nodes.filter (fun n => decide (n ≠ env.dummy) &&
        !((sol.filter (fun p => !decide (p.2 = env.dummy))).map
          (fun p => p.2)).contains n)).length := rfl
  rw [hdist, hins_eq]
  omega

/-- C10 witness: instantiation on the two-chain environment and the
Solution `a -> x, b -> DELETE`: the computed edit distance 2 equals
`2 * 1 + 2 - 2`. -/
theorem editDistance_formula_witness :
    WF env2 ∧ [(1, 3), (2, 5)] ∈ backtrackingTreeEdit env2 ∧
    (calculateEditDistance env2 [(1, 3), (2, 5)] : ℤ) =
      2 * (([(1, 3), (2, 5)].filter (fun p => decide (p.2 = env2.dummy))).length : ℤ) +
        ((env2.t2nodes.filter (fun n => decide (n ≠ env2.dummy))).length : ℤ) -
        (env2.t1nodes.length : ℤ) :=
  ⟨by decide, by decide,
   editDistance_formula env2 (by decide) [(1, 3), (2, 5)] (by decide)⟩

end TreeEdit
